import Mathlib

/-!
Verification development for `zfinder.py` (ICRAR Monster Black Holes).

The Python source is shallowly embedded below.  Floating point numbers are
modelled as rationals (`ℚ`) where the properties of interest are exact
arithmetic and control flow, and as reals (`ℝ`) where transcendental
functions (`exp`, `cos`, `sin`, `sqrt`) occur.  Python exceptions are
modelled with `Option`: a `none` result means the corresponding Python code
raises.  The external random number generator is modelled by quantifying
over the drawn values, and the external `scipy.optimize.curve_fit` call is
modelled by quantifying over its per-candidate outcome (`none` encodes the
`RuntimeError` convergence failure).
-/

namespace ZFinder

/-! ### `average_zeroes` (src/zfinder.py lines 20-26)

The Python function mutates `data` in place while iterating:

```
for i, val in enumerate(data):
    if val == 0:
        data[i] = (data[i-1] + data[i+1])/2
```

At iteration `i` only indices `< i` have been rewritten, so `val = data[i]`
is the original entry, `data[i-1]` is the already-rewritten left neighbour
(for `i = 0` Python's negative indexing wraps to the *original* last
element), and `data[i+1]` is the original right neighbour — except when
`i` is the last index, where `data[i+1]` raises `IndexError` (← `none`).
`az_go prev rest` processes the remaining suffix `rest`, with `prev` the
current (possibly rewritten) value of the entry just left of `rest`. -/

def az_go : ℚ → List ℚ → Option (List ℚ)
  | _, [] => some []
  | prev, v :: rest =>
    if v = 0 then
      match rest with
      | [] => none
      | next :: _ =>
        Option.map (fun tl => ((prev + next) / 2) :: tl) (az_go ((prev + next) / 2) rest)
    else
      Option.map (fun tl => v :: tl) (az_go v rest)

def average_zeroes (data : List ℚ) : Option (List ℚ) :=
  match data with
  | [] => some []
  | v0 :: rest =>
    if v0 = 0 then
      match rest with
      | [] => none
      | next :: _ =>
        Option.map (fun tl => (((v0 :: rest).getLastD 0 + next) / 2) :: tl)
          (az_go (((v0 :: rest).getLastD 0 + next) / 2) rest)
    else
      Option.map (fun tl => v0 :: tl) (az_go v0 rest)

/-! ### Peak-distance penalty (src/zfinder.py lines 446-454)

```
delta_peaks = []
for p1, p2 in zip(spec_peaks, exp_peak):
    delta_peaks.append(abs(p1-p2))
peak_distance = sum(delta_peaks)
if peak_distance > num_spec_peaks*3 or num_spec_peaks < 2:
    chi2 *= 1.2
```
-/

def peak_distance (spec_peaks exp_peak : List ℤ) : ℤ :=
  (List.zipWith (fun p1 p2 => |p1 - p2|) spec_peaks exp_peak).sum

def penalize_chi2 (chi2 : ℚ) (pd : ℤ) (num_spec_peaks : ℕ) : ℚ :=
  if pd > (num_spec_peaks : ℤ) * 3 ∨ num_spec_peaks < 2 then chi2 * 1.2 else chi2

/-! ### The per-point grid-search loop (src/zfinder.py lines 423-458)

```
for ddz in self.z:
    try:
        params, covariance = curve_fit(...)
    except RuntimeError:
        chi2_array.append(max(chi2_array))
        continue
    ...
    chi2_array.append(chi2)
    param_array.append(params)
```

`curve_fit` is external and numeric; each candidate's outcome is an input:
`none` models the `RuntimeError` branch, `some (params, chi2)` models a
converged fit whose (already penalized) chi-squared evaluates to `chi2`.
Python's `max` on an empty list raises `ValueError`, modelled by `pymax`
returning `none` (which makes the whole loop fatal, `zfind_step = none`). -/

def pymax : List ℚ → Option ℚ
  | [] => none
  | x :: xs => some (xs.foldl max x)

structure FitState where
  chi2_array : List ℚ
  param_array : List (ℚ × ℚ)
deriving DecidableEq, Repr

def zfind_step (st : FitState) (outcome : Option ((ℚ × ℚ) × ℚ)) : Option FitState :=
  match outcome with
  | none =>
    match pymax st.chi2_array with
    | none => none
    | some m => some ⟨st.chi2_array ++ [m], st.param_array⟩
  | some (params, chi2) => some ⟨st.chi2_array ++ [chi2], st.param_array ++ [params]⟩

def zfind_go (st : FitState) : List (Option ((ℚ × ℚ) × ℚ)) → Option FitState
  | [] => some st
  | o :: rest =>
    match zfind_step st o with
    | none => none
    | some st2 => zfind_go st2 rest

def zfind_loop (outcomes : List (Option ((ℚ × ℚ) × ℚ))) : Option FitState :=
  zfind_go ⟨[], []⟩ outcomes

/-! ### `gaussf` (src/zfinder.py lines 266-299)

```
y = 0
for i in range(1,n):
    y += (a * np.exp(-((x-i*x0) / s)**2))
return y
```

numpy evaluates this pointwise over the x-axis array; the embedding takes
one x-axis value. -/

noncomputable def gaussf (x a s x0 : ℝ) (n : ℕ) : ℝ :=
  (List.range' 1 (n - 1)).foldl
    (fun (y : ℝ) (i : ℕ) => y + a * Real.exp (-(((x - (i : ℝ) * x0) / s) ^ 2))) 0

/-! ### `spaced_circle_points` (src/zfinder.py lines 216-264)

```
points = [centre_coords]
for _ in range(num_points-1):
    while True:
        theta = 2 * np.pi * random() # choose a random direction
        r = circle_radius * random() # choose a random radius
        x = r * np.cos(theta) + centre_coords[0]
        y = r * np.sin(theta) + centre_coords[1]
        distances = cdist([[x,y]], points, 'euclidean')
        min_distance = min(distances[0])
        if min_distance >= minimum_spread_distance or len(points) == 1:
            points.append([x,y])
            break
return points
```

The random draws and the unbounded `while True` loop are modelled
relationally: `SamplerStep` is one completed iteration of the outer `for`
loop (the accepted draw of the inner `while` loop, with `random()` values
`v, u ∈ [0,1)`), and `SamplerRun k` is the state after `k` outer
iterations.  `accepts` is the acceptance test: the minimum of the
distances to all current points (the list is always nonempty, so the
minimum is `≥ D` exactly when every distance is) is at least the minimum
spread distance, or exactly one point has been placed so far. -/

noncomputable def euclid (p q : ℝ × ℝ) : ℝ :=
  Real.sqrt ((p.1 - q.1) ^ 2 + (p.2 - q.2) ^ 2)

noncomputable def candidate (centre : ℝ × ℝ) (θ r : ℝ) : ℝ × ℝ :=
  (r * Real.cos θ + centre.1, r * Real.sin θ + centre.2)

def accepts (points : List (ℝ × ℝ)) (D : ℝ) (c : ℝ × ℝ) : Prop :=
  (∀ p ∈ points, D ≤ euclid c p) ∨ points.length = 1

inductive SamplerStep (R D : ℝ) (centre : ℝ × ℝ) : List (ℝ × ℝ) → List (ℝ × ℝ) → Prop
  | draw (points : List (ℝ × ℝ)) (v u : ℝ)
      (hv0 : 0 ≤ v) (hv1 : v < 1) (hu0 : 0 ≤ u) (hu1 : u < 1)
      (hacc : accepts points D (candidate centre (2 * Real.pi * v) (R * u))) :
      SamplerStep R D centre points (points ++ [candidate centre (2 * Real.pi * v) (R * u)])

inductive SamplerRun (R D : ℝ) (centre : ℝ × ℝ) : ℕ → List (ℝ × ℝ) → Prop
  | base : SamplerRun R D centre 0 [centre]
  | step (k : ℕ) (pts pts2 : List (ℝ × ℝ)) (h : SamplerRun R D centre k pts)
      (hs : SamplerStep R D centre pts pts2) : SamplerRun R D centre (k + 1) pts2

def spaced_circle_points (num_points : ℕ) (circle_radius : ℝ) (centre_coords : ℝ × ℝ)
    (minimum_spread_distance : ℝ) (points : List (ℝ × ℝ)) : Prop :=
  SamplerRun circle_radius minimum_spread_distance centre_coords (num_points - 1) points

/-! ### Colour categorization of points (src/zfinder.py lines 460-470)

```
if index == 0:
    self.plot_colours.append('black'); target_chi2 = min_plot_chi2
elif min_plot_chi2 <= target_chi2:
    self.plot_colours.append('red')
elif min_plot_chi2 > target_chi2 and min_plot_chi2 <= 1.05*target_chi2:
    self.plot_colours.append('gold')
else:
    self.plot_colours.append('green')
```

Per the spec (section 4.5), colour red = "improved", gold = "comparable",
green = "worse". -/

def plot_colour (index : ℕ) (min_plot_chi2 target_chi2 : ℚ) : String :=
  if index = 0 then "black"
  else if min_plot_chi2 ≤ target_chi2 then "red"
  else if target_chi2 < min_plot_chi2 ∧ min_plot_chi2 ≤ 1.05 * target_chi2 then "gold"
  else "green"

/-! ### Helper lemmas -/

lemma az_go_singleton_zero (prev : ℚ) : az_go prev [0] = none := by
  simp [az_go]

lemma az_go_cons_zero (prev next : ℚ) (rest2 : List ℚ) :
    az_go prev (0 :: next :: rest2)
      = Option.map (fun tl => ((prev + next) / 2) :: tl)
          (az_go ((prev + next) / 2) (next :: rest2)) := by
  simp [az_go]

lemma az_go_cons_ne (prev v : ℚ) (rest : List ℚ) (hv : v ≠ 0) :
    az_go prev (v :: rest) = Option.map (fun tl => v :: tl) (az_go v rest) := by
  simp [az_go, hv]

lemma average_zeroes_singleton_zero : average_zeroes [0] = none := by
  simp [average_zeroes]

lemma average_zeroes_cons_zero (next : ℚ) (rest : List ℚ) :
    average_zeroes (0 :: next :: rest)
      = Option.map (fun tl => ((((0 : ℚ) :: next :: rest).getLastD 0 + next) / 2) :: tl)
          (az_go ((((0 : ℚ) :: next :: rest).getLastD 0 + next) / 2) (next :: rest)) := by
  simp [average_zeroes]

lemma average_zeroes_cons_ne (v0 : ℚ) (rest : List ℚ) (hv : v0 ≠ 0) :
    average_zeroes (v0 :: rest) = Option.map (fun tl => v0 :: tl) (az_go v0 rest) := by
  simp [average_zeroes, hv]

lemma foldl_max_spec (l : List ℚ) : ∀ x : ℚ,
    (l.foldl max x = x ∨ l.foldl max x ∈ l) ∧ x ≤ l.foldl max x ∧
      ∀ c ∈ l, c ≤ l.foldl max x := by
  induction l with
  | nil => intro x; exact ⟨Or.inl rfl, le_refl x, by simp⟩
  | cons a l ih =>
    intro x
    obtain ⟨hmem, hle, hall⟩ := ih (max x a)
    simp only [List.foldl_cons]
    refine ⟨?_, le_trans (le_max_left x a) hle, ?_⟩
    · rcases hmem with h | h
      · rcases max_choice x a with hx | ha
        · exact Or.inl (by rw [h, hx])
        · refine Or.inr ?_
          rw [h, ha]
          exact List.mem_cons_self a l
      · exact Or.inr (List.mem_cons_of_mem a h)
    · intro c hc
      rcases List.mem_cons.1 hc with hca | hc
      · rw [hca]
        exact le_trans (le_max_right x a) hle
      · exact hall c hc

lemma pymax_spec (l : List ℚ) (m : ℚ) (h : pymax l = some m) :
    m ∈ l ∧ ∀ c ∈ l, c ≤ m := by
  cases l with
  | nil => cases h
  | cons x xs =>
    have hm : xs.foldl max x = m := by
      simp only [pymax, Option.some.injEq] at h
      exact h
    obtain ⟨hmem, hle, hall⟩ := foldl_max_spec xs x
    subst hm
    refine ⟨?_, ?_⟩
    · rcases hmem with h | h
      · rw [h]; exact List.mem_cons_self x xs
      · exact List.mem_cons_of_mem x h
    · intro c hc
      rcases List.mem_cons.1 hc with hcx | hc
      · rw [hcx]; exact hle
      · exact hall c hc

lemma pymax_of_ne_nil (l : List ℚ) (h : l ≠ []) : ∃ m, pymax l = some m := by
  cases l with
  | nil => exact absurd rfl h
  | cons x xs => exact ⟨xs.foldl max x, rfl⟩

/-! ### Claim theorems -/

/-- C1: for every candidate redshift, the chi-squared is multiplied by 1.2
exactly when (total peak distance > 3 × number of detected peaks) or
(number of detected peaks < 2); with zero detected peaks the penalty always
applies; with at least two detected peaks whose total peak distance is 0
(e.g. detected peaks exactly aligned with expected peaks) it never applies. -/
theorem penalty_rule (chi2 : ℚ) (pd : ℤ) (n k : ℕ) (peaks : List ℤ) :
    penalize_chi2 chi2 pd n = (if pd > (n : ℤ) * 3 ∨ n < 2 then chi2 * 1.2 else chi2)
    ∧ penalize_chi2 chi2 pd 0 = chi2 * 1.2
    ∧ peak_distance peaks peaks = 0
    ∧ penalize_chi2 chi2 (peak_distance peaks peaks) (k + 2) = chi2 := by
  have hzero : peak_distance peaks peaks = 0 := by
    induction peaks with
    | nil => rfl
    | cons a l ih =>
      simp only [peak_distance, List.zipWith_cons_cons, List.sum_cons, sub_self, abs_zero,
        zero_add] at ih ⊢
      exact ih
  refine ⟨rfl, ?_, hzero, ?_⟩
  · simp [penalize_chi2]
  · rw [hzero, penalize_chi2, if_neg]
    push_neg
    constructor
    · positivity
    · omega

/-- C2: when the curve fit fails to converge at a candidate that is not the
first one of the point (the chi-squared list of already-evaluated
candidates is nonempty), the grid search records, as that candidate's
chi-squared, the maximum among the values already recorded; the failure is
not fatal (the step still returns a state) and the parameter list is left
unchanged. -/
theorem fit_failure_substitutes_running_max (st : FitState) (h : st.chi2_array ≠ []) :
    ∃ m, zfind_step st none = some ⟨st.chi2_array ++ [m], st.param_array⟩
      ∧ m ∈ st.chi2_array ∧ ∀ c ∈ st.chi2_array, c ≤ m := by
  obtain ⟨m, hm⟩ := pymax_of_ne_nil st.chi2_array h
  exact ⟨m, by simp [zfind_step, hm], (pymax_spec _ _ hm).1, (pymax_spec _ _ hm).2⟩

/-- Witness for C2 at the concrete prior chi-squared list `[1, 3, 2]`. -/
theorem fit_failure_substitutes_running_max_witness :
    (([1, 3, 2] : List ℚ) ≠ []) ∧
    ∃ m, zfind_step ⟨[1, 3, 2], []⟩ none = some ⟨[1, 3, 2] ++ [m], []⟩
      ∧ m ∈ ([1, 3, 2] : List ℚ) ∧ ∀ c ∈ ([1, 3, 2] : List ℚ), c ≤ m :=
  ⟨by simp, fit_failure_substitutes_running_max ⟨[1, 3, 2], []⟩ (by simp)⟩

/-- C3: for a non-origin point with reference chi-squared `r` (origin
point's minimum) and own minimum `m`, the point is coloured red
("improved") when `m ≤ r`, gold ("comparable") when `r < m ≤ 1.05·r`, and
green ("worse") when `1.05·r < m`. -/
theorem categorization (j : ℕ) (r m : ℚ) (hr : 0 ≤ r) :
    (m ≤ r → plot_colour (j + 1) m r = "red")
    ∧ (r < m ∧ m ≤ 1.05 * r → plot_colour (j + 1) m r = "gold")
    ∧ (1.05 * r < m → plot_colour (j + 1) m r = "green") := by
  refine ⟨fun h => ?_, fun h => ?_, fun h => ?_⟩
  · simp [plot_colour, h]
  · have h1 : ¬ m ≤ r := not_le.2 h.1
    simp [plot_colour, h1, h.1, h.2]
  · have h0 : r ≤ 1.05 * r := by nlinarith
    have h1 : ¬ m ≤ r := not_le.2 (lt_of_le_of_lt h0 h)
    have h2 : ¬ m ≤ 1.05 * r := not_le.2 h
    simp [plot_colour, h1, h2]

/-- Witness for C3 at the boundary inputs of the claim: reference 100 with
minima 105 (gold/"comparable"), 106 (green/"worse") and 99 (red/"improved"). -/
theorem categorization_witness :
    plot_colour 1 105 100 = "gold" ∧ plot_colour 1 106 100 = "green"
    ∧ plot_colour 1 99 100 = "red" :=
  ⟨(categorization 0 100 105 (by norm_num)).2.1 (by norm_num),
   (categorization 0 100 106 (by norm_num)).2.2 (by norm_num),
   (categorization 0 100 99 (by norm_num)).1 (by norm_num)⟩

/-- C8 counterexample: on the three-candidate grid whose middle fit fails,
the grid search records three chi-squared entries but only two parameter
entries, so the fit-parameter sequence is not index-aligned with the grid. -/
theorem param_array_misaligned_on_fit_failure :
    (zfind_loop [some ((1, 1), 5), none, some ((2, 2), 7)]).map
        (fun st => (st.chi2_array.length, st.param_array.length)) = some (3, 2) := by
  norm_num [zfind_loop, zfind_go, zfind_step, pymax]

lemma zfind_go_lengths :
    ∀ (outcomes : List (Option ((ℚ × ℚ) × ℚ))) (st0 st : FitState),
      zfind_go st0 outcomes = some st →
      st.chi2_array.length = st0.chi2_array.length + outcomes.length ∧
      st.param_array.length = st0.param_array.length
        + outcomes.countP (fun o => o.isSome) := by
  intro outcomes
  induction outcomes with
  | nil =>
    intro st0 st h
    have : st0 = st := by simpa [zfind_go] using h
    subst this
    simp
  | cons o rest ih =>
    intro st0 st h
    cases o with
    | none =>
      cases hp : pymax st0.chi2_array with
      | none => simp [zfind_go, zfind_step, hp] at h
      | some m =>
        have hstep : zfind_go (⟨st0.chi2_array ++ [m], st0.param_array⟩ : FitState) rest
            = some st := by
          simpa [zfind_go, zfind_step, hp] using h
        obtain ⟨h1, h2⟩ := ih _ _ hstep
        refine ⟨?_, ?_⟩ <;> simp [List.countP_cons] at h1 h2 ⊢ <;> omega
    | some pc =>
      have hstep : zfind_go
          (⟨st0.chi2_array ++ [pc.2], st0.param_array ++ [pc.1]⟩ : FitState) rest
          = some st := by
        simpa [zfind_go, zfind_step] using h
      obtain ⟨h1, h2⟩ := ih _ _ hstep
      refine ⟨?_, ?_⟩ <;> simp [List.countP_cons] at h1 h2 ⊢ <;> omega

/-- C8 amended: when the grid search completes without a fatal error, the
chi-squared sequence has exactly one entry per candidate redshift
(index-aligned with the grid), but the fit-parameter sequence has exactly
one entry per *converged* candidate; when some fit fails the parameter
sequence is strictly shorter than the grid and loses index alignment. -/
theorem zfind_loop_lengths (outcomes : List (Option ((ℚ × ℚ) × ℚ))) (st : FitState)
    (h : zfind_loop outcomes = some st) :
    st.chi2_array.length = outcomes.length ∧
    st.param_array.length = outcomes.countP (fun o => o.isSome) := by
  have := zfind_go_lengths outcomes ⟨[], []⟩ st h
  simpa using this

/-- Witness for C8's amended statement on a two-candidate grid whose second
fit fails. -/
theorem zfind_loop_lengths_witness :
    zfind_loop [some ((1, 1), 5), none] = some ⟨[5, 5], [(1, 1)]⟩ ∧
    (FitState.mk [5, 5] [(1, 1)]).chi2_array.length
      = [some (((1 : ℚ), (1 : ℚ)), (5 : ℚ)), none].length ∧
    (FitState.mk [5, 5] [(1, 1)]).param_array.length
      = [some (((1 : ℚ), (1 : ℚ)), (5 : ℚ)), none].countP (fun o => o.isSome) := by
  have h : zfind_loop [some ((1, 1), 5), none] = some ⟨[5, 5], [(1, 1)]⟩ := by
    norm_num [zfind_loop, zfind_go, zfind_step, pymax]
  exact ⟨h, zfind_loop_lengths _ _ h⟩

lemma az_go_getLast_zero :
    ∀ (l : List ℚ) (prev : ℚ), l.getLast? = some 0 → az_go prev l = none := by
  intro l
  induction l with
  | nil => intro prev h; cases h
  | cons v rest ih =>
    intro prev h
    cases rest with
    | nil =>
      have hv : v = 0 := by simpa using h
      subst hv
      exact az_go_singleton_zero prev
    | cons w rest2 =>
      have h2 : (w :: rest2).getLast? = some 0 := by
        rwa [List.getLast?_cons_cons] at h
      by_cases hv : v = 0
      · subst hv
        rw [az_go_cons_zero, ih _ h2]
        rfl
      · rw [az_go_cons_ne prev v _ hv, ih _ h2]
        rfl

/-- C9: the zero-fill function is not total at the right boundary — on any
nonempty uncertainty sequence whose last entry is zero it raises an index
out-of-range error (modelled by `none`) instead of returning a sequence. -/
theorem average_zeroes_trailing_zero_fails (data : List ℚ) (h0 : data ≠ [])
    (hlast : data.getLast? = some 0) : average_zeroes data = none := by
  cases data with
  | nil => exact absurd rfl h0
  | cons v0 rest =>
    cases rest with
    | nil =>
      have hv : v0 = 0 := by simpa using hlast
      subst hv
      exact average_zeroes_singleton_zero
    | cons w rest2 =>
      have h2 : (w :: rest2).getLast? = some 0 := by
        rwa [List.getLast?_cons_cons] at hlast
      by_cases hv : v0 = 0
      · subst hv
        rw [average_zeroes_cons_zero, az_go_getLast_zero _ _ h2]
        rfl
      · rw [average_zeroes_cons_ne v0 _ hv, az_go_getLast_zero _ _ h2]
        rfl

/-- Witness for C9 at the concrete sequence `[1, 0]`. -/
theorem average_zeroes_trailing_zero_fails_witness :
    (([1, 0] : List ℚ) ≠ []) ∧ (([1, 0] : List ℚ).getLast? = some 0) ∧
    average_zeroes [1, 0] = none :=
  ⟨by simp, by simp, average_zeroes_trailing_zero_fails [1, 0] (by simp) (by simp)⟩

/-- C10: on a sequence of length ≥ 2 whose first entry is zero, the
zero-fill function replaces that entry with the arithmetic mean of the last
entry (Python's wrapped index `-1`) and the second entry. -/
theorem average_zeroes_head_zero_wraps (d1 : ℚ) (rest : List ℚ) (out : List ℚ)
    (h : average_zeroes (0 :: d1 :: rest) = some out) :
    out.getD 0 0 = (((0 : ℚ) :: d1 :: rest).getLastD 0 + d1) / 2 := by
  rw [average_zeroes_cons_zero] at h
  obtain ⟨tl, _, hout⟩ := Option.map_eq_some'.1 h
  rw [← hout]
  simp

/-- Witness for C10 at the concrete sequence `[0, 4]`. -/
theorem average_zeroes_head_zero_wraps_witness :
    average_zeroes [0, 4] = some [4, 4] ∧
    ([4, 4] : List ℚ).getD 0 0 = (([0, 4] : List ℚ).getLastD 0 + 4) / 2 := by
  have h : average_zeroes [0, 4] = some [4, 4] := by
    norm_num [average_zeroes, az_go, List.getLastD]
  exact ⟨h, average_zeroes_head_zero_wraps 4 [] [4, 4] h⟩

lemma az_go_spec : ∀ (l : List ℚ) (prev : ℚ) (out : List ℚ), az_go prev l = some out →
    out.length = l.length ∧
    ∀ i, i < l.length →
      (l.getD i 0 ≠ 0 → out.getD i 0 = l.getD i 0) ∧
      (l.getD i 0 = 0 → i + 1 < l.length ∧
        out.getD i 0 = ((prev :: out).getD i 0 + l.getD (i + 1) 0) / 2) := by
  intro l
  induction l with
  | nil =>
    intro prev out h
    have hout : out = [] := by
      simpa [az_go] using h.symm
    subst hout
    exact ⟨rfl, fun i hi => absurd hi (by simp)⟩
  | cons v rest ih =>
    intro prev out h
    by_cases hv : v = 0
    · subst hv
      cases rest with
      | nil => exact absurd (az_go_singleton_zero prev ▸ h) (by simp)
      | cons next rest2 =>
        rw [az_go_cons_zero] at h
        obtain ⟨tl, haz, hout⟩ := Option.map_eq_some'.1 h
        obtain ⟨hlen, hspec⟩ := ih ((prev + next) / 2) tl haz
        subst hout
        refine ⟨by simpa using hlen, ?_⟩
        intro i hi
        cases i with
        | zero =>
          refine ⟨fun hne => (hne (by simp)).elim, fun _ => ⟨by simp, ?_⟩⟩
          simp
        | succ j =>
          have hj : j < (next :: rest2).length := by simpa using hi
          obtain ⟨hA, hB⟩ := hspec j hj
          refine ⟨fun hne => ?_, fun hz => ?_⟩
          · simpa [List.getD_cons_succ] using hA (by simpa [List.getD_cons_succ] using hne)
          · obtain ⟨hlt, heq⟩ := hB (by simpa [List.getD_cons_succ] using hz)
            refine ⟨by simpa using Nat.succ_lt_succ hlt, ?_⟩
            simpa [List.getD_cons_succ] using heq
    · rw [az_go_cons_ne prev v rest hv] at h
      obtain ⟨tl, haz, hout⟩ := Option.map_eq_some'.1 h
      obtain ⟨hlen, hspec⟩ := ih v tl haz
      subst hout
      refine ⟨by simpa using hlen, ?_⟩
      intro i hi
      cases i with
      | zero =>
        exact ⟨fun _ => by simp, fun hz => absurd (by simpa using hz) hv⟩
      | succ j =>
        have hj : j < rest.length := by simpa using hi
        obtain ⟨hA, hB⟩ := hspec j hj
        refine ⟨fun hne => ?_, fun hz => ?_⟩
        · simpa [List.getD_cons_succ] using hA (by simpa [List.getD_cons_succ] using hne)
        · obtain ⟨hlt, heq⟩ := hB (by simpa [List.getD_cons_succ] using hz)
          refine ⟨by simpa using Nat.succ_lt_succ hlt, ?_⟩
          simpa [List.getD_cons_succ] using heq

/-- C7: when the zero-fill succeeds, the output has the input's length,
non-zero entries are left unchanged, and every zero entry at an interior
index is replaced by the arithmetic mean of its immediate left neighbour
(its value in the output, i.e. after any earlier replacement, matching the
in-place Python loop) and its immediate right neighbour (its original
value); in particular `[2, 0, 4]` yields `[2, 3, 4]`. -/
theorem average_zeroes_spec :
    (∀ (data out : List ℚ), average_zeroes data = some out →
      out.length = data.length ∧
      (∀ i, i < data.length → data.getD i 0 ≠ 0 → out.getD i 0 = data.getD i 0) ∧
      (∀ i, 0 < i → i + 1 < data.length → data.getD i 0 = 0 →
        out.getD i 0 = (out.getD (i - 1) 0 + data.getD (i + 1) 0) / 2))
    ∧ average_zeroes [2, 0, 4] = some [2, 3, 4] := by
  constructor
  · intro data out h
    cases data with
    | nil =>
      have hout : out = [] := by
        simpa [average_zeroes] using h.symm
      subst hout
      exact ⟨rfl, fun i hi => absurd hi (by simp), fun i h0 hi => absurd hi (by simp)⟩
    | cons v0 rest =>
      obtain ⟨h0, tl, haz, hout, hhead⟩ :
          ∃ h0 tl, az_go h0 rest = some tl ∧ out = h0 :: tl ∧
            ((v0 :: rest).getD 0 0 ≠ 0 → h0 = v0) := by
        by_cases hv : v0 = 0
        · subst hv
          cases rest with
          | nil => exact absurd (average_zeroes_singleton_zero ▸ h) (by simp)
          | cons next rest2 =>
            rw [average_zeroes_cons_zero] at h
            obtain ⟨tl, haz, hout⟩ := Option.map_eq_some'.1 h
            exact ⟨_, tl, haz, hout.symm, fun hne => (hne (by simp)).elim⟩
        · rw [average_zeroes_cons_ne v0 rest hv] at h
          obtain ⟨tl, haz, hout⟩ := Option.map_eq_some'.1 h
          exact ⟨v0, tl, haz, hout.symm, fun _ => rfl⟩
      subst hout
      obtain ⟨hlen, hspec⟩ := az_go_spec rest h0 tl haz
      refine ⟨by simp [hlen], ?_, ?_⟩
      · intro i hi
        cases i with
        | zero =>
          intro hne
          simp only [List.getD_cons_zero]
          exact hhead hne
        | succ j =>
          intro hne
          have hj : j < rest.length := by simpa using hi
          have := (hspec j hj).1 (by simpa using hne)
          simpa using this
      · intro i hpos hi1 hz
        cases i with
        | zero => exact absurd hpos (by simp)
        | succ j =>
          have hj : j < rest.length := by
            have := Nat.lt_of_succ_lt_succ hi1
            omega
          obtain ⟨-, heq⟩ := (hspec j hj).2 (by simpa using hz)
          simpa using heq
  · norm_num [average_zeroes, az_go]

/-- Witness for C7 at the claim's concrete sequence `[2, 0, 4]`. -/
theorem average_zeroes_spec_witness :
    average_zeroes [2, 0, 4] = some [2, 3, 4] ∧
    ([2, 3, 4] : List ℚ).getD 1 0
      = (([2, 3, 4] : List ℚ).getD 0 0 + ([2, 0, 4] : List ℚ).getD 2 0) / 2 := by
  have h : average_zeroes [2, 0, 4] = some [2, 3, 4] := by
    norm_num [average_zeroes, az_go]
  exact ⟨h, (average_zeroes_spec.1 [2, 0, 4] [2, 3, 4] h).2.2 1 (by norm_num) (by norm_num)
    (by simp)⟩

lemma foldl_add_sum (f : ℕ → ℝ) : ∀ (l : List ℕ) (c : ℝ),
    l.foldl (fun y i => y + f i) c = c + (l.map f).sum := by
  intro l
  induction l with
  | nil => intro c; simp
  | cons b l ih =>
    intro c
    simp only [List.foldl_cons, List.map_cons, List.sum_cons, ih (c + f b)]
    ring

lemma sum_map_range' (f : ℕ → ℝ) : ∀ (m s : ℕ),
    ((List.range' s m).map f).sum = ∑ i in Finset.Ico s (s + m), f i := by
  intro m
  induction m with
  | zero => intro s; simp
  | succ k ih =>
    intro s
    rw [List.range'_succ]
    simp only [List.map_cons, List.sum_cons, ih (s + 1)]
    have hb : s < s + (k + 1) := by omega
    rw [Finset.sum_eq_sum_Ico_succ_bot hb]
    rw [show s + (k + 1) = s + 1 + k from by omega]

/-- C4: the Gaussian template model evaluates, at each x-axis value, to the
sum over harmonic index i = 1..(n−1) of `a·exp(−((x − i·x0)/s)²)`; the
index set `Ico 1 n` has exactly `n − 1` elements, so exactly `n − 1`
Gaussian lobes are summed, never `n`. -/
theorem gaussf_sums_harmonics (x a s x0 : ℝ) (n : ℕ) :
    gaussf x a s x0 n
      = ∑ i in Finset.Ico 1 n, a * Real.exp (-(((x - (i : ℝ) * x0) / s) ^ 2))
    ∧ (Finset.Ico 1 n).card = n - 1 := by
  refine ⟨?_, Nat.card_Ico 1 n⟩
  cases n with
  | zero =>
    rw [gaussf]
    simp
  | succ m =>
    rw [gaussf, foldl_add_sum, sum_map_range', zero_add,
      show 1 + (m + 1 - 1) = m + 1 from by omega]

lemma euclid_comm (p q : ℝ × ℝ) : euclid p q = euclid q p := by
  unfold euclid
  rw [show (p.1 - q.1) ^ 2 + (p.2 - q.2) ^ 2 = (q.1 - p.1) ^ 2 + (q.2 - p.2) ^ 2 from by ring]

lemma euclid_candidate_centre (centre : ℝ × ℝ) (θ r : ℝ) :
    euclid (candidate centre θ r) centre = |r| := by
  unfold euclid candidate
  simp only
  rw [show (r * Real.cos θ + centre.1 - centre.1) ^ 2 + (r * Real.sin θ + centre.2 - centre.2) ^ 2
      = r ^ 2 * (Real.cos θ ^ 2 + Real.sin θ ^ 2) from by ring]
  rw [Real.cos_sq_add_sin_sq, mul_one, Real.sqrt_sq_eq_abs]

lemma sampler_run_spec {R D : ℝ} {centre : ℝ × ℝ} {k : ℕ} {pts : List (ℝ × ℝ)}
    (h : SamplerRun R D centre k pts) :
    pts.length = k + 1 ∧ pts.head? = some centre ∧
    ∀ i j pi pj, pts.get? i = some pi → pts.get? j = some pj → i < j → 2 ≤ j →
      D ≤ euclid pi pj := by
  induction h with
  | base =>
    refine ⟨rfl, rfl, ?_⟩
    intro i j pi pj hpi hpj hij h2j
    have : j < 1 := by
      by_contra hc
      rw [List.get?_eq_none.2 (by simpa using Nat.not_lt.1 hc)] at hpj
      cases hpj
    omega
  | step k1 pts1 pts2 h hs ih =>
    obtain ⟨hlen, hhead, hsep⟩ := ih
    cases hs with
    | draw v u hv0 hv1 hu0 hu1 hacc =>
      refine ⟨by simp [hlen], ?_, ?_⟩
      · cases pts1 with
        | nil =>
          exfalso
          simp only [List.length_nil] at hlen
          omega
        | cons p0 rest => simpa using hhead
      · intro i j pi pj hpi hpj hij h2j
        by_cases hjlt : j < pts1.length
        · have hilt : i < pts1.length := lt_trans hij hjlt
          rw [List.get?_append hilt] at hpi
          rw [List.get?_append hjlt] at hpj
          exact hsep i j pi pj hpi hpj hij h2j
        · have hjlen : j < pts1.length + 1 := by
            by_contra hc
            rw [List.get?_eq_none.2 (by simpa using Nat.not_lt.1 hc)] at hpj
            cases hpj
          have hjeq : j = pts1.length := by omega
          subst hjeq
          rw [List.get?_concat_length] at hpj
          have hpj' : pj = candidate centre (2 * Real.pi * v) (R * u) := by
            cases hpj; rfl
          subst hpj'
          have hilt : i < pts1.length := hij
          rw [List.get?_append hilt] at hpi
          have hmem : pi ∈ pts1 := List.get?_mem hpi
          rcases hacc with hall | hone
          · rw [euclid_comm]
            exact hall pi hmem
          · omega

/-- C5 amended: every completed sampler run of `num_points ≥ 1` points
returns exactly `num_points` points whose first element is the centre, and
every pair of points whose later index is at least 2 is at least the
minimum spread distance apart; the pair formed by the centre and the
second point is exempt from the distance check (the acceptance test is
skipped while only the centre has been placed). -/
theorem spaced_circle_points_spec (num_points : ℕ) (R : ℝ) (centre : ℝ × ℝ) (D : ℝ)
    (pts : List (ℝ × ℝ)) (hN : 1 ≤ num_points)
    (h : spaced_circle_points num_points R centre D pts) :
    pts.length = num_points ∧ pts.head? = some centre ∧
    ∀ i j pi pj, pts.get? i = some pi → pts.get? j = some pj → i < j → 2 ≤ j →
      D ≤ euclid pi pj := by
  obtain ⟨hlen, hh, hsep⟩ := sampler_run_spec h
  refine ⟨?_, hh, hsep⟩
  rw [hlen]
  omega

/-- Witness for C5's amended statement: the one-point run. -/
theorem spaced_circle_points_spec_witness :
    (1 ≤ 1) ∧ spaced_circle_points 1 1 ((0 : ℝ), (0 : ℝ)) 3 [((0 : ℝ), (0 : ℝ))] ∧
    ([((0 : ℝ), (0 : ℝ))].length = 1 ∧ [((0 : ℝ), (0 : ℝ))].head? = some ((0 : ℝ), (0 : ℝ)) ∧
      ∀ i j pi pj, [((0 : ℝ), (0 : ℝ))].get? i = some pi →
        [((0 : ℝ), (0 : ℝ))].get? j = some pj → i < j → 2 ≤ j → (3 : ℝ) ≤ euclid pi pj) :=
  ⟨le_rfl, SamplerRun.base,
    spaced_circle_points_spec 1 1 ((0 : ℝ), (0 : ℝ)) 3 _ le_rfl SamplerRun.base⟩

/-- C5 counterexample: with centre (0,0), radius 1 and minimum spread
distance 3, the sampler can return the two-point list [(0,0), (1/2,0)]
whose two (distinct) points are only 1/2 < 3 apart: the second point is
accepted unconditionally because only the centre exists when it is drawn. -/
theorem spaced_circle_points_close_pair :
    spaced_circle_points 2 1 ((0 : ℝ), (0 : ℝ)) 3 [((0 : ℝ), (0 : ℝ)), ((1 / 2 : ℝ), 0)]
    ∧ euclid ((0 : ℝ), (0 : ℝ)) ((1 / 2 : ℝ), 0) < 3 := by
  constructor
  · have hc : candidate ((0 : ℝ), (0 : ℝ)) (2 * Real.pi * 0) (1 * (1 / 2))
        = ((1 / 2 : ℝ), 0) := by
      simp [candidate]
    have hstep := @SamplerStep.draw 1 3 ((0 : ℝ), (0 : ℝ))
      [((0 : ℝ), (0 : ℝ))] 0 (1 / 2) le_rfl zero_lt_one (by norm_num) (by norm_num)
      (Or.inr rfl)
    rw [hc] at hstep
    exact SamplerRun.step 0 _ _ SamplerRun.base hstep
  · have h14 : euclid ((0 : ℝ), (0 : ℝ)) ((1 / 2 : ℝ), 0) = Real.sqrt (1 / 4) := by
      unfold euclid
      norm_num
    rw [h14, show (1 / 4 : ℝ) = (1 / 2) ^ 2 from by norm_num,
      Real.sqrt_sq (by norm_num : (0 : ℝ) ≤ 1 / 2)]
    norm_num

/-- C6: with centre (0,0), radius 1 and minimum spread distance 3 (an
infeasible separation: every candidate lies within distance 1 of the
centre), no completed three-point sampler run exists at all — the
`while True` loop redraws rejected candidates forever; nothing in the code
caps the number of redraws or surfaces a failure to the caller. -/
theorem infeasible_separation_never_returns :
    {pts : List (ℝ × ℝ) | spaced_circle_points 3 1 ((0 : ℝ), (0 : ℝ)) 3 pts} = ∅ := by
  ext pts
  simp only [Set.mem_setOf_eq, Set.mem_empty_iff_false, iff_false]
  intro h
  cases h with
  | step k1 pts1 pts2 h1 hs2 =>
    cases hs2 with
    | draw v u hv0 hv1 hu0 hu1 hacc =>
      obtain ⟨hlen, hhead, -⟩ := sampler_run_spec h1
      rcases hacc with hall | hone
      · have hmem : ((0 : ℝ), (0 : ℝ)) ∈ pts1 := by
          cases pts1 with
          | nil => cases hhead
          | cons p0 rest =>
            have hp0 : p0 = ((0 : ℝ), (0 : ℝ)) := by
              have := hhead
              simp only [List.head?_cons, Option.some.injEq] at this
              exact this
            rw [hp0]
            exact List.mem_cons_self _ _
        have h3 := hall _ hmem
        rw [euclid_candidate_centre, one_mul, abs_of_nonneg hu0] at h3
        linarith
      · omega

end ZFinder
